import Mathlib

/-!
Shallow embedding of the rust-ecdsa repository (src/arithmetic.rs, src/secp256k1.rs,
src/ecdsa.rs) and proofs about the claims of its specification.

Conventions of the embedding:
- `num_bigint::BigInt` is `ℤ`.  Rust `%` and `/` on `BigInt` truncate toward zero,
  so they are `Int.tmod` and `Int.tdiv`.
- A Rust function that can panic (an `unwrap` on `None`) is modelled as returning
  `Option`, with `none` marking the panic.
- The recursive `Modular::gcd` is modelled with an explicit fuel argument
  (`egcdAux`); `egcd` supplies fuel `a.natAbs + 1`, which is proved sufficient
  (`egcd_def` shows the source's recurrence holds exactly).
- Randomness is a parameter: `PrivateKey.generate` takes the range-draw function,
  and `Signature.sign_message` takes the nonce the signing loop drew.
-/

/-- Modular::modulus for BigInt: `rem`, then if the remainder is negative add the
modulus and `rem` again (src/arithmetic.rs lines 26-33). -/
def modulus (x m : ℤ) : ℤ :=
  let r := Int.tmod x m
  if r < 0 then Int.tmod (r + m) m else r

/-- Modular::addmod for BigInt (src/arithmetic.rs lines 22-24): reduces both
operands but does NOT reduce the sum again. -/
def addmod (x y m : ℤ) : ℤ :=
  modulus x m + modulus y m

/-- Modular::mulmod for BigInt (src/arithmetic.rs lines 35-37). -/
def mulmod (x y m : ℤ) : ℤ :=
  modulus (modulus x m * modulus y m) m

/-- Modular::submod for BigInt (src/arithmetic.rs lines 39-41). -/
def submod (x y m : ℤ) : ℤ :=
  modulus (modulus x m - modulus y m) m

/-- Modular::powmod for BigInt (src/arithmetic.rs lines 43-45), i.e.
num-bigint `modpow`, which floor-reduces the result; defined for
non-negative exponents (num-bigint panics otherwise). -/
def powmod (x e m : ℤ) : ℤ :=
  (x ^ e.toNat) % m

/-- Modular::gcd for BigInt (src/arithmetic.rs lines 56-63), with fuel.
The source recursion is `gcd a b = if a = 0 then (b, 0, 1) else
let (g, x, y) := gcd (b.modulus(a)) a; (g, y - x * (b / a), x)` where `/` is
Rust's truncating division. -/
def egcdAux : ℕ → ℤ → ℤ → ℤ × ℤ × ℤ
  | 0, _, b => (b, 0, 1)
  | f + 1, a, b =>
    if a = 0 then (b, 0, 1)
    else
      let t := egcdAux f (modulus b a) a
      (t.1, t.2.2 - t.2.1 * Int.tdiv b a, t.2.1)

/-- Modular::gcd with enough fuel to run the recursion to its base case. -/
def egcd (a b : ℤ) : ℤ × ℤ × ℤ :=
  egcdAux (a.natAbs + 1) a b

/-- Modular::invmod for BigInt (src/arithmetic.rs lines 47-54): destructures
`gcd(self, modulus)` as `(gcd, x, _)` and normalizes `x` when `gcd = 1`. -/
def invmod (x m : ℤ) : Option ℤ :=
  if (egcd x m).1 = 1 then
    some (modulus (modulus (egcd x m).2.1 m + m) m)
  else none

/-- Fuel-based bit length of a natural number (number of binary digits). -/
def bitLenAux : ℕ → ℕ → ℕ
  | 0, _ => 0
  | f + 1, m => if m = 0 then 0 else bitLenAux f (m / 2) + 1

/-- Bit length of a natural number; fuel `m` always suffices. -/
def bitLen (m : ℕ) : ℕ :=
  bitLenAux m m

/-- Length in bytes of num-bigint's `to_signed_bytes_be` (minimal two's
complement big-endian encoding) of an integer. -/
def byteLen (nn : ℤ) : ℕ :=
  if 0 ≤ nn then bitLen nn.toNat / 8 + 1
  else bitLen (nn.natAbs - 1) / 8 + 1

/-- ToBits for BigInt (src/arithmetic.rs lines 303-315): the bits of
`to_signed_bytes_be`, most significant first, 8 bits per byte. -/
def toBits (nn : ℤ) : List Bool :=
  let w := 8 * byteLen nn
  let v := (nn % (2 : ℤ) ^ w).toNat
  (List.range w).map (fun j => v.testBit (w - 1 - j))

/-- ToBits for u64 (src/arithmetic.rs lines 296-301): always 64 bits, most
significant first. -/
def toBits64 (nn : ℕ) : List Bool :=
  (List.range 64).map (fun j => nn.testBit (63 - j))

/-- Fuel-based floor square root helper: counts up while the square fits. -/
def isqrtAux : ℕ → ℕ → ℕ → ℕ
  | 0, k, _ => k
  | f + 1, k, m => if (k + 1) * (k + 1) ≤ m then isqrtAux f (k + 1) m else k

/-- Floor integer square root, the semantics of num-bigint `BigInt::sqrt`. -/
def isqrt (m : ℕ) : ℕ :=
  isqrtAux m 0 m

/-- Secp256k1Point (src/arithmetic.rs lines 66-70): both coordinates optional;
`x = none, y = none` is the point at infinity. -/
structure Secp256k1Point where
  x : Option ℤ
  y : Option ℤ
  deriving DecidableEq

/-- Zero::zero for Secp256k1Point (src/arithmetic.rs lines 145-148). -/
def Secp256k1Point.zero : Secp256k1Point :=
  { x := none, y := none }

/-- Secp256k1Point::free_dot (src/arithmetic.rs lines 84-86): constructs an
affine point with no validation at all. -/
def Secp256k1Point.free_dot (x y : ℤ) : Secp256k1Point :=
  { x := some x, y := some y }

/-- Secp256k1Params (src/secp256k1.rs): the fixed secp256k1 domain parameters. -/
structure Secp256k1Params where
  a : ℤ
  b : ℤ
  p : ℤ
  g : Secp256k1Point
  n : ℤ

/-- Secp256k1Params::get (src/secp256k1.rs lines 13-42). -/
def Secp256k1Params.get : Secp256k1Params :=
  { a := 0
    b := 7
    p := 0xfffffffffffffffffffffffffffffffffffffffffffffffffffffffefffffc2f
    g := Secp256k1Point.free_dot
      0x79be667ef9dcbbac55a06295ce870b07029bfcdb2dce28d959f2815b16f81798
      0x483ada7726a3c4655da4fbfc0e1108a8fd17b448a68554199c47d08ffb10d4b8
    n := 0xfffffffffffffffffffffffffffffffebaaedce6af48a03bbfd25e8cd0364141 }

/-- Secp256k1Point::init (src/arithmetic.rs lines 74-82): takes the INTEGER
square root (num-bigint `BigInt::sqrt`) of `x^3 + a*x + b mod p` as the
y-coordinate. -/
def Secp256k1Point.init (x : ℤ) : Secp256k1Point :=
  let a := Secp256k1Params.get.a
  let b := Secp256k1Params.get.b
  let p := Secp256k1Params.get.p
  { x := some x, y := some (Int.ofNat (isqrt (modulus (x ^ 3 + a * x + b) p).toNat)) }

/-- Secp256k1Point::times_two (src/arithmetic.rs lines 116-142); `none` is the
panic of the `unwrap` on `invmod (2*y) p`. -/
def Secp256k1Point.times_two (P : Secp256k1Point) : Option Secp256k1Point :=
  if P = Secp256k1Point.zero then some Secp256k1Point.zero
  else
    match P.x, P.y with
    | some x, some y =>
      let a := Secp256k1Params.get.a
      let p := Secp256k1Params.get.p
      let lam1 := 3 * x ^ 2 + a
      match invmod (2 * y) p with
      | none => none
      | some lam2 =>
        let lam := modulus (lam1 * lam2) p
        let rx := modulus (lam ^ 2 - x - x) p
        let ry := modulus (lam * (x - rx) - y) p
        some { x := some rx, y := some ry }
    | _, _ => some Secp256k1Point.zero

/-- Add for Secp256k1Point (src/arithmetic.rs lines 167-210); `none` is the
panic of the `unwrap` on `invmod (bx - ax) p`. -/
def Secp256k1Point.add (P Q : Secp256k1Point) : Option Secp256k1Point :=
  if P = Q then
    (if P = Secp256k1Point.zero then some Secp256k1Point.zero else P.times_two)
  else if P = Secp256k1Point.zero then some Q
  else if Q = Secp256k1Point.zero then some P
  else if P.x = Q.x then some Secp256k1Point.zero
  else
    match P.x, P.y, Q.x, Q.y with
    | some ax, some ay, some bx, some qy =>
      let p := Secp256k1Params.get.p
      match invmod (bx - ax) p with
      | none => none
      | some w =>
        let lam := modulus ((qy - ay) * w) p
        let rx := modulus (lam ^ 2 - ax - bx) p
        let ry := modulus (lam * (ax - rx) - ay) p
        some { x := some rx, y := some ry }
    | _, _, _, _ => some Secp256k1Point.zero

/-- One iteration of the double-and-add loop body shared by
Secp256k1Point::times and Secp256k1Point::times_u64. -/
def Secp256k1Point.stepBit (pt : Secp256k1Point) (acc : Option Secp256k1Point)
    (bit : Bool) : Option Secp256k1Point :=
  match acc with
  | none => none
  | some r =>
    match r.times_two with
    | none => none
    | some d => if bit then d.add pt else some d

/-- Secp256k1Point::times (src/arithmetic.rs lines 102-114): the accumulator
`res` starts at `self`, not at the identity. -/
def Secp256k1Point.times (P : Secp256k1Point) (nn : ℤ) : Option Secp256k1Point :=
  (toBits nn).foldl (Secp256k1Point.stepBit P) (some P)

/-- Secp256k1Point::times_u64 (src/arithmetic.rs lines 88-100): same loop over
a fixed 64-bit expansion. -/
def Secp256k1Point.times_u64 (P : Secp256k1Point) (nn : ℕ) : Option Secp256k1Point :=
  (toBits64 nn).foldl (Secp256k1Point.stepBit P) (some P)

/-- The curve-equation predicate of the data model: a non-infinity point lies
on `y^2 = x^3 + a*x + b (mod p)` for the secp256k1 parameters. -/
def Secp256k1Point.onCurve (P : Secp256k1Point) : Bool :=
  match P.x, P.y with
  | some x, some y =>
    decide (modulus (y ^ 2) Secp256k1Params.get.p =
      modulus (x ^ 3 + Secp256k1Params.get.a * x + Secp256k1Params.get.b)
        Secp256k1Params.get.p)
  | _, _ => true

/-- The lower bound of BigInt256Bounds::get (src/ecdsa.rs lines 12-25). -/
def i256Lo : ℤ :=
  -57896044618658097711785492504343953926634992332820282019728792003956564819968

/-- The upper bound of BigInt256Bounds::get (src/ecdsa.rs lines 12-25). -/
def i256Hi : ℤ :=
  57896044618658097711785492504343953926634992332820282019728792003956564819967

/-- PrivateKey::generate (src/ecdsa.rs lines 32-39): calls the rng's
`gen_bigint_range` with the BigInt256Bounds, NOT with the group order.  The
rng is modelled as the function `draw` from the requested range to the value
produced. -/
def PrivateKey.generate (draw : ℤ → ℤ → ℤ) : ℤ :=
  draw i256Lo i256Hi

/-- PublicKey::new (src/ecdsa.rs lines 41-48): `g.times(priv_key)`. -/
def PublicKey.new (d : ℤ) : Option Secp256k1Point :=
  Secp256k1Point.times Secp256k1Params.get.g d

/-- num-bigint `BigInt::from_signed_bytes_be`: big-endian two's complement
interpretation of a byte string (the empty string is 0). -/
def fromSignedBytesBE (bs : List ℕ) : ℤ :=
  match bs with
  | [] => 0
  | b :: _ =>
    let v : ℕ := bs.foldl (fun acc bb => acc * 256 + bb) 0
    if 128 ≤ b then (v : ℤ) - (2 : ℤ) ^ (8 * bs.length) else (v : ℤ)

/-- Signature::sign_message (src/ecdsa.rs lines 63-86) for one pass of the
nonce loop with drawn nonce `k`; the message is its byte string.  `none`
covers both a failed pass (`r = 0`, the loop would redraw) and the panics of
the two `unwrap`s; on success the Rust function returns the signature pair
TOGETHER WITH the nonce. -/
def Signature.sign_message (msg : List ℕ) (d k : ℤ) : Option ((ℤ × ℤ) × ℤ) :=
  let g := Secp256k1Params.get.g
  let n := Secp256k1Params.get.n
  match g.times k with
  | none => none
  | some R =>
    match R.x with
    | none => none
    | some Rx =>
      let r := modulus Rx n
      if r = 0 then none
      else
        let e := fromSignedBytesBE msg
        match invmod k n with
        | none => none
        | some kinv => some ((r, modulus ((e + r * d) * kinv) n), k)

/-- Signature::validate (src/ecdsa.rs lines 88-100); `none` is the panic of
the `unwrap` on `invmod s n` or a panic propagated from the point arithmetic. -/
def Signature.validate (msg : List ℕ) (Q : Secp256k1Point) (r s : ℤ) : Option Bool :=
  let g := Secp256k1Params.get.g
  let n := Secp256k1Params.get.n
  let e := fromSignedBytesBE msg
  match invmod s n with
  | none => none
  | some invs =>
    let u := modulus (e * invs) n
    let v := modulus (r * invs) n
    match g.times u, Q.times v with
    | some cu, some cv =>
      match cu.add cv with
      | none => none
      | some c =>
        match c.x, c.y with
        | some cx, some _ => some (decide (modulus cx n = r))
        | _, _ => some false
    | _, _ => none

theorem natAbs_tmod (x m : ℤ) : (Int.tmod x m).natAbs = x.natAbs % m.natAbs := by
  cases x <;> cases m <;> simp only [Int.tmod, Int.natAbs_neg] <;> rfl

theorem modulus_natAbs_lt (b : ℤ) {a : ℤ} (ha : a ≠ 0) :
    (modulus b a).natAbs < a.natAbs := by
  have h0 : 0 < a.natAbs := Int.natAbs_pos.mpr ha
  unfold modulus
  by_cases h : Int.tmod b a < 0
  · simp only [h, if_true]
    rw [natAbs_tmod]
    exact Nat.mod_lt _ h0
  · simp only [h, if_false]
    rw [natAbs_tmod]
    exact Nat.mod_lt _ h0

theorem egcdAux_congr : ∀ (f g : ℕ) (a b : ℤ), a.natAbs < f → a.natAbs < g →
    egcdAux f a b = egcdAux g a b := by
  intro f
  induction f with
  | zero => intro g a b hf; omega
  | succ f ih =>
    intro g a b hf hg
    match g, hg with
    | g + 1, hg =>
      by_cases ha : a = 0
      · simp [egcdAux, ha]
      · have hlt := modulus_natAbs_lt b ha
        have h1 : (modulus b a).natAbs < f := by omega
        have h2 : (modulus b a).natAbs < g := by omega
        simp only [egcdAux, ha, if_false]
        rw [ih g (modulus b a) a h1 h2]

theorem egcd_def (a b : ℤ) : egcd a b =
    if a = 0 then (b, 0, 1)
    else ((egcd (modulus b a) a).1,
      (egcd (modulus b a) a).2.2 - (egcd (modulus b a) a).2.1 * Int.tdiv b a,
      (egcd (modulus b a) a).2.1) := by
  by_cases ha : a = 0
  · simp [egcd, egcdAux, ha]
  · have hlt := modulus_natAbs_lt b ha
    have h1 : egcdAux (a.natAbs + 1) a b =
        ((egcdAux a.natAbs (modulus b a) a).1,
          (egcdAux a.natAbs (modulus b a) a).2.2 -
            (egcdAux a.natAbs (modulus b a) a).2.1 * Int.tdiv b a,
          (egcdAux a.natAbs (modulus b a) a).2.1) := by
      simp only [egcdAux, ha, if_false]
    have h2 : egcdAux a.natAbs (modulus b a) a = egcd (modulus b a) a :=
      egcdAux_congr _ _ _ _ (by omega) (by omega)
    rw [egcd, h1, h2, if_neg ha]

theorem tmod_bounds (b : ℤ) {a : ℤ} (ha : a ≠ 0) :
    -(a.natAbs : ℤ) < Int.tmod b a ∧ Int.tmod b a < a.natAbs := by
  have h := natAbs_tmod b a
  have h0 : 0 < a.natAbs := Int.natAbs_pos.mpr ha
  have h1 : (Int.tmod b a).natAbs < a.natAbs := by
    rw [h]; exact Nat.mod_lt _ h0
  omega

theorem modulus_eq_emod (x : ℤ) {m : ℤ} (hm : 0 < m) : modulus x m = x % m := by
  have hm0 : m ≠ 0 := by omega
  have hb := tmod_bounds x hm0
  have hma : (m.natAbs : ℤ) = m := Int.natAbs_of_nonneg (by omega)
  rw [hma] at hb
  have hdef : Int.tmod x m = x - m * Int.tdiv x m := Int.tmod_def x m
  unfold modulus
  by_cases h : Int.tmod x m < 0
  · simp only [h, if_true]
    have h1 : 0 ≤ Int.tmod x m + m := by omega
    have h2 : Int.tmod x m + m < m := by omega
    rw [Int.tmod_eq_of_lt h1 h2]
    have h3 : x % m = ((Int.tmod x m + m) + m * (Int.tdiv x m - 1)) % m := by
      congr 1
      linear_combination -hdef
    rw [h3, Int.add_mul_emod_self_left, Int.emod_eq_of_lt h1 h2]
  · simp only [h, if_false]
    push_neg at h
    have h3 : x % m = (Int.tmod x m + m * Int.tdiv x m) % m := by
      congr 1
      linear_combination -hdef
    rw [h3, Int.add_mul_emod_self_left]
    exact (Int.emod_eq_of_lt h hb.2).symm

theorem modulus_nonneg (x : ℤ) {m : ℤ} (hm : 0 < m) : 0 ≤ modulus x m := by
  rw [modulus_eq_emod x hm]; exact Int.emod_nonneg x (by omega)

theorem modulus_lt (x : ℤ) {m : ℤ} (hm : 0 < m) : modulus x m < m := by
  rw [modulus_eq_emod x hm]; exact Int.emod_lt_of_pos x hm

theorem gcd_emod_step {a b : ℤ} (ha : 0 < a) (hb : 0 ≤ b) :
    Int.gcd (b % a) a = Int.gcd a b := by
  have h1 : b % a = Int.tmod b a := (Int.tmod_eq_emod hb (by omega)).symm
  have h2 : (b % a).natAbs = b.natAbs % a.natAbs := by
    rw [h1, natAbs_tmod]
  unfold Int.gcd
  rw [h2]
  exact (Nat.gcd_rec a.natAbs b.natAbs).symm

theorem egcd_correct : ∀ (k : ℕ) (a b : ℤ), a.natAbs ≤ k → 0 ≤ a → 0 ≤ b →
    (egcd a b).1 = (Int.gcd a b : ℤ) ∧
    (egcd a b).2.1 * a + (egcd a b).2.2 * b = (Int.gcd a b : ℤ) := by
  intro k
  induction k with
  | zero =>
    intro a b hk h0a h0b
    have ha : a = 0 := by omega
    rw [egcd_def, if_pos ha]
    subst ha
    have hg : (Int.gcd 0 b : ℤ) = b := by
      unfold Int.gcd
      simp [Int.natAbs_of_nonneg h0b]
    constructor
    · simpa using hg.symm
    · simpa using hg.symm
  | succ k ih =>
    intro a b hk h0a h0b
    by_cases ha : a = 0
    · rw [egcd_def, if_pos ha]
      subst ha
      have hg : (Int.gcd 0 b : ℤ) = b := by
        unfold Int.gcd
        simp [Int.natAbs_of_nonneg h0b]
      constructor
      · simpa using hg.symm
      · simpa using hg.symm
    · have hapos : 0 < a := by omega
      have hmod : modulus b a = b % a := modulus_eq_emod b hapos
      have hm0 : 0 ≤ b % a := Int.emod_nonneg b (by omega)
      have habs : (modulus b a).natAbs ≤ k := by
        have := modulus_natAbs_lt b ha
        omega
      obtain ⟨ihg, ihb⟩ := ih (modulus b a) a habs (by omega) h0a
      have hgcd : Int.gcd (modulus b a) a = Int.gcd a b := by
        rw [hmod]; exact gcd_emod_step hapos h0b
      rw [egcd_def, if_neg ha]
      have hq : b % a = b - a * Int.tdiv b a := by
        rw [← Int.tmod_eq_emod h0b (by omega)]
        exact Int.tmod_def b a
      have hq2 : modulus b a = b - a * Int.tdiv b a := by rw [hmod, hq]
      rw [hgcd] at ihg ihb
      constructor
      · show (egcd (modulus b a) a).1 = (Int.gcd a b : ℤ)
        exact ihg
      · show ((egcd (modulus b a) a).2.2 - (egcd (modulus b a) a).2.1 * Int.tdiv b a) * a
            + (egcd (modulus b a) a).2.1 * b = (Int.gcd a b : ℤ)
        linear_combination ihb - (egcd (modulus b a) a).2.1 * hq2


/-- C6 (amended): for every x ≥ 0 and m > 1, if gcd(x, m) = 1 then invmod
returns some u with u in [0, m) and x*u ≡ 1 (mod m); and if gcd(x, m) ≠ 1 it
returns none (a recoverable absence, never a crash).  For negative x the
implementation's extended GCD is incorrect (see the counterexample). -/
theorem C6_invmod_amended (x m : ℤ) (hx : 0 ≤ x) (hm : 1 < m) :
    (Int.gcd x m = 1 →
      ∃ u, invmod x m = some u ∧ 0 ≤ u ∧ u < m ∧ (x * u) % m = 1) ∧
    (Int.gcd x m ≠ 1 → invmod x m = none) := by
  have hm0 : (0 : ℤ) < m := by omega
  obtain ⟨hg, hb⟩ := egcd_correct x.natAbs x m (le_refl _) (by omega) (by omega)
  constructor
  · intro h1
    refine ⟨modulus (modulus (egcd x m).2.1 m + m) m, ?_, ?_, ?_, ?_⟩
    · unfold invmod
      rw [hg, h1]
      simp
    · exact modulus_nonneg _ hm0
    · exact modulus_lt _ hm0
    · have e1 : modulus (egcd x m).2.1 m = (egcd x m).2.1 % m :=
        modulus_eq_emod _ hm0
      have e2 : modulus ((egcd x m).2.1 % m + m) m = (egcd x m).2.1 % m := by
        rw [modulus_eq_emod _ hm0, Int.add_emod_self, Int.emod_emod]
      rw [e1, e2]
      have e3 : x * ((egcd x m).2.1 % m) % m = x * (egcd x m).2.1 % m := by
        rw [Int.mul_emod, Int.emod_emod_of_dvd _ (dvd_refl m), ← Int.mul_emod]
      rw [e3]
      have e4 : x * (egcd x m).2.1 = 1 + m * (-(egcd x m).2.2) := by
        rw [h1] at hb
        push_cast at hb
        linear_combination hb
      rw [e4, Int.add_mul_emod_self_left]
      exact Int.emod_eq_of_lt (by omega) (by omega)
  · intro h1
    unfold invmod
    have hne : (egcd x m).1 ≠ 1 := by
      rw [hg]
      exact_mod_cast fun hc => h1 (by exact_mod_cast hc)
    simp [hne]

theorem bitLenAux_spec : ∀ (f m : ℕ), m < 2 ^ f →
    bitLenAux f m = if m = 0 then 0 else Nat.log 2 m + 1 := by
  intro f
  induction f with
  | zero => intro m hm; interval_cases m; rfl
  | succ f ih =>
    intro m hm
    by_cases h0 : m = 0
    · simp [bitLenAux, h0]
    · rw [bitLenAux, if_neg h0, if_neg h0]
      have hdiv : m / 2 < 2 ^ f := by
        rw [Nat.div_lt_iff_lt_mul (by norm_num)]
        calc m < 2 ^ (f + 1) := hm
        _ = 2 ^ f * 2 := by ring
      rw [ih (m / 2) hdiv]
      by_cases h1 : m = 1
      · subst h1; simp
      · have h2 : 2 ≤ m := by omega
        have hd0 : m / 2 ≠ 0 := by omega
        rw [if_neg hd0]
        have hlog : Nat.log 2 (m / 2) = Nat.log 2 m - 1 := Nat.log_div_base 2 m
        have hpos : 0 < Nat.log 2 m := Nat.log_pos (by norm_num) h2
        omega

theorem bitLen_spec (m : ℕ) (hm : m ≠ 0) : bitLen m = Nat.log 2 m + 1 := by
  rw [bitLen, bitLenAux_spec m m (Nat.lt_two_pow m), if_neg hm]

theorem byteLen_of_mid (n : ℕ) (h1 : 2 ^ 55 ≤ n) (h2 : n < 2 ^ 63) :
    byteLen (n : ℤ) = 8 := by
  have hn0 : n ≠ 0 := by positivity
  have hlo : 55 ≤ Nat.log 2 n := (Nat.pow_le_iff_le_log (by norm_num) hn0).mp h1
  have hhi : Nat.log 2 n < 63 := (Nat.lt_pow_iff_log_lt (by norm_num) hn0).mp h2
  rw [byteLen, if_pos (by positivity)]
  rw [Int.toNat_natCast, bitLen_spec n hn0]
  omega

theorem toBits_eq_toBits64 (n : ℕ) (h1 : 2 ^ 55 ≤ n) (h2 : n < 2 ^ 63) :
    toBits (n : ℤ) = toBits64 n := by
  have hb := byteLen_of_mid n h1 h2
  rw [toBits, hb]
  have hv : ((n : ℤ) % (2 : ℤ) ^ (8 * 8)).toNat = n := by
    rw [Int.emod_eq_of_lt (by positivity) ?hlt]
    · exact Int.toNat_natCast n
    case hlt =>
      calc (n : ℤ) < (2 : ℤ) ^ 63 := by exact_mod_cast h2
      _ ≤ (2 : ℤ) ^ (8 * 8) := by norm_num
  rw [hv]
  rfl

/-- C7: the nonce is NOT kept internal: whatever sign_message returns, the
second component of the returned pair is exactly the ephemeral nonce k the
signing loop drew (src/ecdsa.rs line 85 returns `(Self { r, s }, gen_k)`). -/
theorem C7_sign_message_returns_nonce (msg : List ℕ) (d k : ℤ) :
    (Signature.sign_message msg d k).map (fun out => out.2)
      = (Signature.sign_message msg d k).map (fun _ => k) := by
  cases h1 : Secp256k1Params.get.g.times k with
  | none => simp [Signature.sign_message, h1]
  | some R =>
    cases h2 : R.x with
    | none => simp [Signature.sign_message, h1, h2]
    | some Rx =>
      by_cases h3 : modulus Rx Secp256k1Params.get.n = 0
      · simp [Signature.sign_message, h1, h2, h3]
      · cases h4 : invmod k Secp256k1Params.get.n with
        | none => simp [Signature.sign_message, h1, h2, h3, h4]
        | some kinv => simp [Signature.sign_message, h1, h2, h3, h4]


set_option maxRecDepth 1000000
set_option maxHeartbeats 4000000

/-- C1: the sign-then-verify round trip FAILS on the implementation.  With
private key d = 1 (public key Q computed by the implementation as
PublicKey::new), the empty message, and nonce draw k = 1 (which the signing
loop accepts), validate returns false on the signature sign_message produced. -/
theorem C1_roundtrip_fails :
    Option.bind (PublicKey.new 1) (fun Q =>
      Option.bind (Signature.sign_message [] 1 1) (fun st =>
        Signature.validate [] Q st.1.1 st.1.2)) = some false := by
  decide

/-- C2: scalar multiplication is wrong at n = 0: the claim requires
0 · G = Infinity, but times returns an affine point (its x-coordinate is
present), because the accumulator is initialized to the point itself and is
doubled once per bit of the 8-bit encoding of 0 (the result is 256 · G). -/
theorem C2_times_zero_not_infinity :
    (Secp256k1Point.times Secp256k1Params.get.g 0).map (fun P => P.x.isSome)
      = some true := by
  decide

/-- C3: key generation does not draw from [1, n-1]: it requests the range
[i256Lo, i256Hi) = [-2^255, 2^255 - 1) from the rng, so a draw of -1 is
admissible and produces the private key -1, which is not in [1, n-1]. -/
theorem C3_generate_range_wrong :
    i256Lo ≤ -1 ∧ (-1 : ℤ) < i256Hi ∧
    PrivateKey.generate (fun _ _ => -1) = -1 ∧ ((1 : ℤ) ≤ -1) = False :=
  ⟨by decide, by decide, rfl, eq_false (by decide)⟩

/-- C4: validate does not reject an out-of-range s with false: for s = 0 it
evaluates invmod(0, n).unwrap(), i.e. it panics (modelled as none) instead of
returning a boolean reject. -/
theorem C4_validate_panics_on_s_zero :
    Signature.validate [] Secp256k1Params.get.g 1 0 = none := by
  decide

/-- C5: addmod does not reduce its result: addmod(1, 1, 2) = 2, which is not
in [0, 2).  The final reduction that mulmod and submod perform is missing. -/
theorem C5_addmod_not_reduced : addmod 1 1 2 = 2 := by
  decide

/-- C6 (counterexample): x = -4 and m = 7 are coprime, yet invmod returns
some 6 and (-4) * 6 ≡ 4 (mod 7), not 1: the claimed inverse property fails
for negative x. -/
theorem C6_invmod_wrong_on_negative :
    Int.gcd (-4) 7 = 1 ∧ invmod (-4) 7 = some 6 ∧
    (((-4 * 6 : ℤ) % 7) = 1) = False :=
  ⟨by decide, by decide, eq_false (by decide)⟩

/-- C6 (witness): the amended theorem applied at x = 3, m = 7 (coprime) and at
x = 2, m = 4 (not coprime). -/
theorem C6_invmod_amended_witness :
    (∃ u, invmod 3 7 = some u ∧ 0 ≤ u ∧ u < 7 ∧ (3 * u) % 7 = 1) ∧
    invmod 2 4 = none :=
  ⟨(C6_invmod_amended 3 7 (by norm_num) (by norm_num)).1 (by decide),
   (C6_invmod_amended 2 4 (by norm_num) (by norm_num)).2 (by decide)⟩

/-- C8: doubling a point whose y-coordinate is 0 modulo p panics: times_two
unwraps invmod(2 * 0, p) = none.  The point (0, 0) is constructible via
free_dot, which performs no validation. -/
theorem C8_times_two_panics_on_y_zero :
    Secp256k1Point.times_two { x := some 0, y := some 0 } = none := by
  decide

/-- C9: Secp256k1Point::init builds points off the curve: init(1) takes the
integer square root of 1^3 + 7 = 8, giving y = 2, and 2^2 = 4 is not congruent
to 8 modulo p, so the curve-equation invariant fails. -/
theorem C9_init_point_off_curve :
    Secp256k1Point.onCurve (Secp256k1Point.init 1) = false := by
  decide

/-- C10 (counterexample): the two scalar-multiplication implementations
disagree at P = G, n = 0: times_u64 folds over 64 bits while times folds over
the 8 bits of the one-byte encoding of 0. -/
theorem C10_times_u64_disagrees_at_zero :
    decide (Secp256k1Point.times_u64 Secp256k1Params.get.g 0
      = Secp256k1Point.times Secp256k1Params.get.g 0) = false := by
  decide

/-- C10 (amended): the two implementations agree exactly on the window where
the signed big-endian encoding of n is 8 bytes, i.e. 2^55 ≤ n < 2^63; there
both process the same 64-bit pattern. -/
theorem C10_times_u64_eq_times_in_window (P : Secp256k1Point) (n : ℕ)
    (h1 : 2 ^ 55 ≤ n) (h2 : n < 2 ^ 63) :
    Secp256k1Point.times_u64 P n = Secp256k1Point.times P (n : ℤ) := by
  rw [Secp256k1Point.times, Secp256k1Point.times_u64, toBits_eq_toBits64 n h1 h2]

/-- C10 (witness): the amended theorem applied at P = Infinity, n = 2^55. -/
theorem C10_window_witness :
    Secp256k1Point.times_u64 Secp256k1Point.zero (2 ^ 55)
      = Secp256k1Point.times Secp256k1Point.zero ((2 ^ 55 : ℕ) : ℤ) :=
  C10_times_u64_eq_times_in_window Secp256k1Point.zero (2 ^ 55)
    (le_refl _) (by norm_num)
